import Mathlib

/-!
Verification of the argus-bot trading system core.

Shallow embedding of the TypeScript sources:
  * `PaperBrokerService` (src/unnamed/part_001): cash/position/trade ledger.
  * `MultiAIBrokerService` (src/unnamed/part_000): per-personality trader pool
    and the per-symbol tick step `analyzeAndTrade`.
  * `ChironEngine` (src/unnamed/part_000): regime detection and weight tables.
  * `ArgusDecisionEngine` (src/src/services/ArgusDecisionEngine.ts): decision
    synthesis (weighted scores, composite, confidence).
  * `AITradingAgent` (src/src/services/AITradingAgent.ts): action selection.

JavaScript numbers are modelled as exact rationals (`ℚ`); `Math.floor`,
`Math.ceil` and `Math.round` become `Int.floor`, `Int.ceil` and `round`
(all three agree with the JS semantics on the rational inputs considered:
JS `Math.round x` is `⌊x + 1/2⌋`).  JS `Map` objects are modelled as
association lists with key-based get/set/delete.  Display strings
(reasons, explanations) are modelled as tags where their identity matters
and omitted where no claim depends on them.
-/

namespace Argus

/-! ### Association lists, modelling JS `Map` semantics -/

def alGet {α : Type} (ps : List (String × α)) (sym : String) : Option α :=
  (ps.find? (fun p => p.1 = sym)).map (·.2)

def alSet {α : Type} (ps : List (String × α)) (sym : String) (v : α) :
    List (String × α) :=
  match ps with
  | [] => [(sym, v)]
  | (k, w) :: rest =>
      if k = sym then (sym, v) :: rest else (k, w) :: alSet rest sym v

def alDel {α : Type} (ps : List (String × α)) (sym : String) :
    List (String × α) :=
  ps.filter (fun p => ¬ p.1 = sym)

theorem alGet_alSet_same {α : Type} (ps : List (String × α)) (sym : String)
    (v : α) : alGet (alSet ps sym v) sym = some v := by
  induction ps with
  | nil => simp [alGet, alSet, List.find?]
  | cons hd tl ih =>
      obtain ⟨k, w⟩ := hd
      by_cases hk : k = sym
      · simp [alSet, hk, alGet, List.find?]
      · simp only [alSet, if_neg hk]
        simpa [alGet, List.find?, hk] using ih

theorem alGet_alSet_other {α : Type} (ps : List (String × α)) (s sym : String)
    (v : α) (h : s ≠ sym) : alGet (alSet ps s v) sym = alGet ps sym := by
  induction ps with
  | nil => simp [alGet, alSet, List.find?, h]
  | cons hd tl ih =>
      obtain ⟨k, w⟩ := hd
      by_cases hk : k = s
      · subst hk
        simp [alSet, alGet, List.find?, h]
      · by_cases hks : k = sym
        · simp [alSet, if_neg hk, alGet, List.find?, hks, Ne.symm h]
        · simp only [alSet, if_neg hk]
          simpa [alGet, List.find?, hks] using ih

theorem alGet_alDel_same {α : Type} (ps : List (String × α)) (sym : String) :
    alGet (alDel ps sym) sym = none := by
  induction ps with
  | nil => simp [alGet, alDel]
  | cons hd tl ih =>
      obtain ⟨k, w⟩ := hd
      by_cases hk : k = sym
      · have hstep : alDel ((k, w) :: tl) sym = alDel tl sym := by
          simp [alDel, hk]
        rw [hstep]
        exact ih
      · simp only [alDel, List.filter] at ih ⊢
        simp [hk, alGet, List.find?]

theorem alGet_alDel_other {α : Type} (ps : List (String × α)) (s sym : String)
    (h : s ≠ sym) : alGet (alDel ps s) sym = alGet ps sym := by
  induction ps with
  | nil => simp [alGet, alDel]
  | cons hd tl ih =>
      obtain ⟨k, w⟩ := hd
      by_cases hk : k = s
      · subst hk
        simp only [alDel, List.filter] at ih ⊢
        simpa [alGet, List.find?, h, Ne.symm h] using ih
      · by_cases hks : k = sym
        · simp [alDel, List.filter, hk, alGet, List.find?, hks, Ne.symm h]
        · simp only [alDel, List.filter] at ih ⊢
          simpa [hk, alGet, List.find?, hks] using ih

theorem mem_alSet {α : Type} (ps : List (String × α)) (sym : String) (v : α) :
    ∀ kv ∈ alSet ps sym v, kv = (sym, v) ∨ kv ∈ ps := by
  induction ps with
  | nil => simp [alSet]
  | cons hd tl ih =>
      obtain ⟨k, w⟩ := hd
      by_cases hk : k = sym
      · intro kv hkv
        simp only [alSet, if_pos hk, List.mem_cons] at hkv
        rcases hkv with h | h
        · exact Or.inl h
        · exact Or.inr (List.mem_cons_of_mem _ h)
      · intro kv hkv
        simp only [alSet, if_neg hk, List.mem_cons] at hkv
        rcases hkv with h | h
        · exact Or.inr (by simp [h])
        · rcases ih kv h with h' | h'
          · exact Or.inl h'
          · exact Or.inr (List.mem_cons_of_mem _ h')

theorem mem_alDel {α : Type} (ps : List (String × α)) (sym : String) :
    ∀ kv ∈ alDel ps sym, kv ∈ ps := fun _ h => List.mem_of_mem_filter h

theorem mem_of_alGet {α : Type} (ps : List (String × α)) (sym : String)
    (v : α) (h : alGet ps sym = some v) : (sym, v) ∈ ps := by
  unfold alGet at h
  rcases Option.map_eq_some'.mp h with ⟨⟨k, w⟩, hfind, hw⟩
  have hk := List.find?_some hfind
  simp only [decide_eq_true_eq] at hk
  simp only at hw
  subst hk
  subst hw
  exact List.mem_of_find?_eq_some hfind

/-! ### The paper-broker ledger (`PaperBrokerService`, src/unnamed/part_001) -/

namespace Paper

/-- A held lot stored in `PaperBrokerService.positions`: `{ shares, avgCost }`. -/
structure Pos where
  shares : ℚ
  avgCost : ℚ
deriving DecidableEq

inductive TradeAction where
  | buyAct
  | sellAct
deriving DecidableEq

/-- A recorded `Trade`.  The `id` and `timestamp` fields (wall-clock data with
no arithmetic content) and the free-text `reason` are omitted. -/
structure Trade where
  action : TradeAction
  symbol : String
  shares : ℚ
  price : ℚ
  total : ℚ
  argusScore : ℚ
deriving DecidableEq

/-- The mutable fields of `PaperBrokerService`: cash, the position map, the
most-recent-first trade history, and the starting capital. -/
structure State where
  cash : ℚ
  positions : List (String × Pos)
  trades : List Trade
  startingCapital : ℚ
deriving DecidableEq

/-- `const MAX_POSITION_SIZE = 0.20`. -/
def MAX_POSITION_SIZE : ℚ := 0.20

/-- `getTotalValue` as invoked from `buy` with the one-entry price map
`new Map([[symbol, price]])`: each position is valued at the map price when
its symbol matches and the looked-up price is truthy (`|| pos.avgCost` falls
back on `0`), else at its average cost. -/
def getTotalValue (st : State) (sym : String) (price : ℚ) : ℚ :=
  st.positions.foldl
    (fun total p =>
      total + p.2.shares * (if p.1 = sym ∧ price ≠ 0 then price else p.2.avgCost))
    st.cash

/-- The quantity-weighted average cost `totalCost / totalShares` computed by
`buy` when extending an existing position, where
`totalCost = existing.shares * existing.avgCost + shares * price`. -/
def blendedAvgCost (oldShares oldAvg newShares price : ℚ) : ℚ :=
  (oldShares * oldAvg + newShares * price) / (oldShares + newShares)

/-- The investment amount sized by `buy`:
`Math.min(maxInvestment, this.cash * 0.9)` with
`maxInvestment = getTotalValue(...) * MAX_POSITION_SIZE`. -/
def sizedInvestment (st : State) (sym : String) (price : ℚ) : ℚ :=
  min (getTotalValue st sym price * MAX_POSITION_SIZE) (st.cash * 0.9)

/-- The whole-share count sized by `buy`: `Math.floor(investment / price)`. -/
def sizedShares (st : State) (sym : String) (price : ℚ) : ℤ :=
  ⌊sizedInvestment st sym price / price⌋

/-- The position-map update performed by an executing `buy`: extend an
existing position with the quantity-weighted blended cost, else create a
fresh position at the purchase price. -/
def buyPositions (ps : List (String × Pos)) (sym : String)
    (shares price : ℚ) : List (String × Pos) :=
  match alGet ps sym with
  | some existing =>
      alSet ps sym
        ⟨existing.shares + shares,
         blendedAvgCost existing.shares existing.avgCost shares price⟩
  | none => alSet ps sym ⟨shares, price⟩

/-- `PaperBrokerService.buy(symbol, price, reason, argusScore)`.  Returns the
executed trade (when any) together with the successor state; the `return null`
paths leave the state unchanged.  JS `Math.min`/`Math.floor` become
`min`/`Int.floor` on exact rationals. -/
def buy (st : State) (sym : String) (price argusScore : ℚ) :
    Option Trade × State :=
  let investment := sizedInvestment st sym price
  if investment < 100 then (none, st)
  else
    let shares : ℤ := sizedShares st sym price
    if shares < 1 then (none, st)
    else
      let total := (shares : ℚ) * price
      let trade : Trade :=
        ⟨TradeAction.buyAct, sym, (shares : ℚ), price, total, argusScore⟩
      (some trade,
       { st with
           cash := st.cash - total
           positions := buyPositions st.positions sym (shares : ℚ) price
           trades := trade :: st.trades })

/-- The share count sold by `sell`:
`sellAll ? position.shares : Math.ceil(position.shares / 2)`. -/
def sharesToSellOf (position : Pos) (sellAll : Bool) : ℚ :=
  if sellAll then position.shares else (⌈position.shares / 2⌉ : ℚ)

/-- `PaperBrokerService.sell(symbol, price, reason, argusScore, sellAll)`.
`sellAll = false` sells `Math.ceil(position.shares / 2)` shares. -/
def sell (st : State) (sym : String) (price argusScore : ℚ) (sellAll : Bool) :
    Option Trade × State :=
  match alGet st.positions sym with
  | none => (none, st)
  | some position =>
      if position.shares ≤ 0 then (none, st)
      else
        let sharesToSell := sharesToSellOf position sellAll
        let total := sharesToSell * price
        let positions' :=
          if sellAll then alDel st.positions sym
          else
            alSet st.positions sym
              ⟨position.shares - sharesToSell, position.avgCost⟩
        let trade : Trade :=
          ⟨TradeAction.sellAct, sym, sharesToSell, price, total, argusScore⟩
        (some trade,
         { st with
             cash := st.cash + total
             positions := positions'
             trades := trade :: st.trades })

theorem buy_noop_lowInvestment (st : State) (sym : String) (p sc : ℚ)
    (h : sizedInvestment st sym p < 100) : buy st sym p sc = (none, st) := by
  simp [buy, h]

theorem buy_noop_lowShares (st : State) (sym : String) (p sc : ℚ)
    (h1 : ¬ sizedInvestment st sym p < 100) (h2 : sizedShares st sym p < 1) :
    buy st sym p sc = (none, st) := by
  simp [buy, h1, h2]

theorem buy_exec (st : State) (sym : String) (p sc : ℚ)
    (h1 : ¬ sizedInvestment st sym p < 100)
    (h2 : ¬ sizedShares st sym p < 1) :
    buy st sym p sc =
      (some ⟨TradeAction.buyAct, sym, (sizedShares st sym p : ℚ), p,
          (sizedShares st sym p : ℚ) * p, sc⟩,
       { st with
           cash := st.cash - (sizedShares st sym p : ℚ) * p
           positions :=
             buyPositions st.positions sym (sizedShares st sym p : ℚ) p
           trades :=
             ⟨TradeAction.buyAct, sym, (sizedShares st sym p : ℚ), p,
              (sizedShares st sym p : ℚ) * p, sc⟩ :: st.trades }) := by
  simp [buy, h1, h2]

theorem sell_noop_noPosition (st : State) (sym : String) (p sc : ℚ)
    (sellAll : Bool) (hget : alGet st.positions sym = none) :
    sell st sym p sc sellAll = (none, st) := by
  simp [sell, hget]

theorem sell_noop_emptyPosition (st : State) (sym : String) (p sc : ℚ)
    (sellAll : Bool) (position : Pos)
    (hget : alGet st.positions sym = some position)
    (h0 : position.shares ≤ 0) : sell st sym p sc sellAll = (none, st) := by
  simp [sell, hget, h0]

theorem sell_exec (st : State) (sym : String) (p sc : ℚ) (sellAll : Bool)
    (position : Pos) (hget : alGet st.positions sym = some position)
    (h0 : ¬ position.shares ≤ 0) :
    sell st sym p sc sellAll =
      (some ⟨TradeAction.sellAct, sym, sharesToSellOf position sellAll, p,
          sharesToSellOf position sellAll * p, sc⟩,
       { st with
           cash := st.cash + sharesToSellOf position sellAll * p
           positions :=
             if sellAll then alDel st.positions sym
             else
               alSet st.positions sym
                 ⟨position.shares - sharesToSellOf position sellAll,
                  position.avgCost⟩
           trades :=
             ⟨TradeAction.sellAct, sym, sharesToSellOf position sellAll, p,
              sharesToSellOf position sellAll * p, sc⟩ :: st.trades }) := by
  simp [sell, hget, h0]

/-- `shouldStopLoss(symbol, currentPrice)` with
`const STOP_LOSS_PERCENT = -10`. -/
def shouldStopLoss (st : State) (sym : String) (currentPrice : ℚ) : Bool :=
  match alGet st.positions sym with
  | none => false
  | some position =>
      ((currentPrice - position.avgCost) / position.avgCost) * 100 ≤ -10

/-- A ledger command: one `buy` or `sell` invocation. -/
inductive Op where
  | buyOp (sym : String) (price argusScore : ℚ)
  | sellOp (sym : String) (price argusScore : ℚ) (sellAll : Bool)
deriving DecidableEq

def Op.price : Op → ℚ
  | .buyOp _ p _ => p
  | .sellOp _ p _ _ => p

/-- Execute one command, keeping only the successor state (a `null` return
mutates nothing). -/
def step (st : State) : Op → State
  | .buyOp s p sc => (buy st s p sc).2
  | .sellOp s p sc a => (sell st s p sc a).2

/-- Execute a sequence of commands. -/
def run (st : State) (ops : List Op) : State := ops.foldl step st

/-- A freshly constructed ledger with starting capital `c` (`reset` /
first-run state). -/
def initState (c : ℚ) : State := ⟨c, [], [], c⟩

/-- Sum of the `total` amounts of the BUY trades in a history. -/
def buySum : List Trade → ℚ
  | [] => 0
  | t :: ts =>
      (match t.action with
       | TradeAction.buyAct => t.total
       | TradeAction.sellAct => 0) + buySum ts

/-- Sum of the `total` amounts of the SELL trades in a history. -/
def sellSum : List Trade → ℚ
  | [] => 0
  | t :: ts =>
      (match t.action with
       | TradeAction.buyAct => 0
       | TradeAction.sellAct => t.total) + sellSum ts

/-- The cash-accounting invariant of the ledger:
`cash = startingCapital − Σ buy totals + Σ sell totals`, and cash is
non-negative. -/
def CashInv (st : State) : Prop :=
  st.cash = st.startingCapital - buySum st.trades + sellSum st.trades ∧
    0 ≤ st.cash

theorem floor_div_mul_le (x p : ℚ) (hp : 0 < p) : (⌊x / p⌋ : ℚ) * p ≤ x := by
  have h := Int.floor_le (x / p)
  calc (⌊x / p⌋ : ℚ) * p ≤ x / p * p :=
        mul_le_mul_of_nonneg_right h (le_of_lt hp)
    _ = x := div_mul_cancel₀ x (ne_of_gt hp)

theorem sizedShares_total_le (st : State) (s : String) (p : ℚ) (hp : 0 < p) :
    (sizedShares st s p : ℚ) * p ≤ st.cash * 0.9 :=
  le_trans (floor_div_mul_le (sizedInvestment st s p) p hp)
    (min_le_right _ _)

theorem sharesToSellOf_pos (position : Pos) (sellAll : Bool)
    (h0 : 0 < position.shares) : 0 < sharesToSellOf position sellAll := by
  unfold sharesToSellOf
  split_ifs
  · exact h0
  · have h2 : (0 : ℚ) < position.shares / 2 := by linarith
    have hceil := Int.le_ceil (position.shares / 2)
    exact_mod_cast lt_of_lt_of_le h2 hceil

theorem buy_step_cashInv (st : State) (s : String) (p sc : ℚ) (hp : 0 < p)
    (h : CashInv st) : CashInv (buy st s p sc).2 := by
  obtain ⟨hacc, hpos⟩ := h
  by_cases h1 : sizedInvestment st s p < 100
  · rw [buy_noop_lowInvestment st s p sc h1]
    exact ⟨hacc, hpos⟩
  · by_cases h2 : sizedShares st s p < 1
    · rw [buy_noop_lowShares st s p sc h1 h2]
      exact ⟨hacc, hpos⟩
    · rw [buy_exec st s p sc h1 h2]
      have htot := sizedShares_total_le st s p hp
      refine ⟨?_, by simp only; linarith⟩
      simp only [buySum, sellSum]
      norm_num
      linarith [hacc]

theorem sell_step_cashInv (st : State) (s : String) (p sc : ℚ)
    (sellAll : Bool) (hp : 0 < p) (h : CashInv st) :
    CashInv (sell st s p sc sellAll).2 := by
  obtain ⟨hacc, hpos⟩ := h
  cases hget : alGet st.positions s with
  | none =>
      rw [sell_noop_noPosition st s p sc sellAll hget]
      exact ⟨hacc, hpos⟩
  | some position =>
      by_cases h0 : position.shares ≤ 0
      · rw [sell_noop_emptyPosition st s p sc sellAll position hget h0]
        exact ⟨hacc, hpos⟩
      · rw [sell_exec st s p sc sellAll position hget h0]
        have hsh : 0 < sharesToSellOf position sellAll :=
          sharesToSellOf_pos position sellAll (by linarith)
        have htot : 0 ≤ sharesToSellOf position sellAll * p :=
          mul_nonneg (le_of_lt hsh) (le_of_lt hp)
        refine ⟨?_, by simp only; linarith⟩
        simp only [buySum, sellSum]
        norm_num
        linarith [hacc]

theorem step_cashInv (st : State) (op : Op) (hp : 0 < op.price)
    (h : CashInv st) : CashInv (step st op) := by
  cases op with
  | buyOp s p sc => exact buy_step_cashInv st s p sc hp h
  | sellOp s p sc a => exact sell_step_cashInv st s p sc a hp h

theorem run_cashInv (st : State) (ops : List Op)
    (hp : ∀ op ∈ ops, 0 < op.price) (h : CashInv st) :
    CashInv (run st ops) := by
  induction ops generalizing st with
  | nil => exact h
  | cons op rest ih =>
      exact ih (step st op)
        (fun o ho => hp o (List.mem_cons_of_mem _ ho))
        (step_cashInv st op (hp op (List.mem_cons_self _ _)) h)

theorem buy_debit_le_cash (st : State) (s : String) (p sc : ℚ) (hp : 0 < p)
    (hc : 0 ≤ st.cash) (tr : Trade) (st2 : State)
    (h : buy st s p sc = (some tr, st2)) : tr.total ≤ st.cash := by
  by_cases h1 : sizedInvestment st s p < 100
  · rw [buy_noop_lowInvestment st s p sc h1] at h
    exact absurd (congrArg Prod.fst h) (by simp)
  · by_cases h2 : sizedShares st s p < 1
    · rw [buy_noop_lowShares st s p sc h1 h2] at h
      exact absurd (congrArg Prod.fst h) (by simp)
    · rw [buy_exec st s p sc h1 h2] at h
      have htr := congrArg Prod.fst h
      simp only [Option.some.injEq] at htr
      have htot := sizedShares_total_le st s p hp
      rw [← htr]
      simp only
      linarith

theorem buy_startingCapital (st : State) (s : String) (p sc : ℚ) :
    (buy st s p sc).2.startingCapital = st.startingCapital := by
  by_cases h1 : sizedInvestment st s p < 100
  · rw [buy_noop_lowInvestment st s p sc h1]
  · by_cases h2 : sizedShares st s p < 1
    · rw [buy_noop_lowShares st s p sc h1 h2]
    · rw [buy_exec st s p sc h1 h2]

theorem sell_startingCapital (st : State) (s : String) (p sc : ℚ)
    (sellAll : Bool) :
    (sell st s p sc sellAll).2.startingCapital = st.startingCapital := by
  cases hget : alGet st.positions s with
  | none => rw [sell_noop_noPosition st s p sc sellAll hget]
  | some position =>
      by_cases h0 : position.shares ≤ 0
      · rw [sell_noop_emptyPosition st s p sc sellAll position hget h0]
      · rw [sell_exec st s p sc sellAll position hget h0]

theorem run_startingCapital (st : State) (ops : List Op) :
    (run st ops).startingCapital = st.startingCapital := by
  induction ops generalizing st with
  | nil => rfl
  | cons op rest ih =>
      have hstep : (step st op).startingCapital = st.startingCapital := by
        cases op with
        | buyOp s p sc => exact buy_startingCapital st s p sc
        | sellOp s p sc a => exact sell_startingCapital st s p sc a
      calc (run (step st op) rest).startingCapital
          = (step st op).startingCapital := ih (step st op)
        _ = st.startingCapital := hstep

/-- C4 — A buy that adds shares to an already-held position yields a position
whose `avgCost` is the quantity-weighted blend
`(oldShares*oldAvgCost + newShares*price) / (oldShares + newShares)`; the
blend lies strictly between the two purchase prices whenever they differ;
and blending 10 shares at 100 with 10 shares at 120 yields 110. -/
theorem c4_blended_average_cost :
    (∀ (st : State) (sym : String) (p sc : ℚ) (pos0 : Pos) (tr : Trade)
        (st2 : State),
      alGet st.positions sym = some pos0 →
      buy st sym p sc = (some tr, st2) →
      alGet st2.positions sym =
        some ⟨pos0.shares + tr.shares,
              blendedAvgCost pos0.shares pos0.avgCost tr.shares p⟩) ∧
    (∀ s0 a0 s p : ℚ, 0 < s0 → 0 < s → a0 ≠ p →
      min a0 p < blendedAvgCost s0 a0 s p ∧
        blendedAvgCost s0 a0 s p < max a0 p) ∧
    blendedAvgCost 10 100 10 120 = 110 := by
  refine ⟨?_, ?_, by norm_num [blendedAvgCost]⟩
  · intro st sym p sc pos0 tr st2 hget hbuy
    by_cases h1 : sizedInvestment st sym p < 100
    · rw [buy_noop_lowInvestment st sym p sc h1] at hbuy
      exact absurd (congrArg Prod.fst hbuy) (by simp)
    · by_cases h2 : sizedShares st sym p < 1
      · rw [buy_noop_lowShares st sym p sc h1 h2] at hbuy
        exact absurd (congrArg Prod.fst hbuy) (by simp)
      · rw [buy_exec st sym p sc h1 h2] at hbuy
        have htr := congrArg Prod.fst hbuy
        simp only [Option.some.injEq] at htr
        have hst := congrArg Prod.snd hbuy
        simp only at hst
        rw [← hst]
        simp only [buyPositions, hget]
        rw [alGet_alSet_same]
        rw [← htr]
  · intro s0 a0 s p hs0 hs ha
    rcases lt_or_gt_of_ne ha with hlt | hgt
    · rw [min_eq_left (le_of_lt hlt), max_eq_right (le_of_lt hlt)]
      unfold blendedAvgCost
      constructor
      · rw [lt_div_iff₀ (by linarith)]
        nlinarith
      · rw [div_lt_iff₀ (by linarith)]
        nlinarith
    · rw [min_eq_right (le_of_lt hgt), max_eq_left (le_of_lt hgt)]
      unfold blendedAvgCost
      constructor
      · rw [lt_div_iff₀ (by linarith)]
        nlinarith
      · rw [div_lt_iff₀ (by linarith)]
        nlinarith

/-- A concrete ledger holding 10 shares of "A" at average cost 100, used to
exercise the position-extension path of `buy`. -/
def c4State : State := ⟨1000, [("A", ⟨10, 100⟩)], [], 2000⟩

theorem c4_blended_average_cost_witness :
    alGet ((buy c4State "A" 100 60).2).positions "A" =
      some ⟨10 + 4, blendedAvgCost 10 100 4 100⟩ ∧
    min (100 : ℚ) 120 < blendedAvgCost 10 100 10 120 ∧
      blendedAvgCost 10 100 10 120 < max (100 : ℚ) 120 := by
  constructor
  · have happ := c4_blended_average_cost.1 c4State "A" 100 60 ⟨10, 100⟩
      ⟨TradeAction.buyAct, "A", 4, 100, 400, 60⟩ (buy c4State "A" 100 60).2
      (by norm_num [c4State, alGet, List.find?])
      (by
        have h1 : ¬ sizedInvestment c4State "A" 100 < 100 := by
          norm_num [sizedInvestment, getTotalValue, c4State,
            MAX_POSITION_SIZE, min_def]
        have h2 : sizedShares c4State "A" 100 = 4 := by
          norm_num [sizedShares, sizedInvestment, getTotalValue, c4State,
            MAX_POSITION_SIZE, min_def, Int.floor_eq_iff]
        have h2' : ¬ sizedShares c4State "A" 100 < 1 := by
          rw [h2]
          norm_num
        rw [buy_exec c4State "A" 100 60 h1 h2', h2]
        norm_num)
    exact happ
  · exact c4_blended_average_cost.2.1 10 100 10 120 (by norm_num)
      (by norm_num) (by norm_num)

/-- The positive-shares invariant of the position map: every position that
is present holds strictly positive shares. -/
def PosInv (st : State) : Prop := ∀ pr ∈ st.positions, 0 < pr.2.shares

/-- C5 counterexample — buying a one-share lot and then selling it with
`sellAll = false` leaves a position with zero shares in the map: the
partial-sell path writes `position.shares - Math.ceil(position.shares / 2)`
back without removing the entry when it reaches zero.  With starting capital
1000 and price 150, `buy` sizes `floor(200/150) = 1` share, and the partial
sell then sells `ceil(1/2) = 1` share, leaving `{shares: 0}` present. -/
theorem c5_positive_shares_counterexample :
    ¬ PosInv (sell (buy (initState 1000) "A" 150 60).2 "A" 150 60 false).2 := by
  intro h
  have hmem : ("A", (⟨0, 150⟩ : Pos)) ∈
      (sell (buy (initState 1000) "A" 150 60).2 "A" 150 60 false).2.positions := by
    have hc : (⌈(1 : ℚ) / 2⌉ : ℤ) = 1 := by norm_num [Int.ceil_eq_iff]
    have hpos : (sell (buy (initState 1000) "A" 150 60).2 "A" 150 60
        false).2.positions = [("A", ⟨0, 150⟩)] := by
      norm_num [buy, sell, initState, sizedInvestment, sizedShares,
        getTotalValue, MAX_POSITION_SIZE, buyPositions, sharesToSellOf,
        alGet, alSet, List.find?, min_def, Int.floor_eq_iff, hc]
    rw [hpos]
    exact List.mem_singleton.mpr rfl
  have := h _ hmem
  norm_num at this

/-- The side condition forced by the counterexample: a partial sell
(`sellAll = false`) must only hit a position holding at least 2 shares
(in actual runs share counts are whole numbers, so this only excludes the
one-share lot of the counterexample). -/
def OkOp (st : State) : Op → Prop
  | Op.sellOp sym _ _ false =>
      ∀ pos, alGet st.positions sym = some pos → 2 ≤ pos.shares
  | _ => True

theorem buyPositions_posInv (ps : List (String × Pos)) (sym : String)
    (shares price : ℚ) (hs : 0 < shares)
    (hinv : ∀ pr ∈ ps, 0 < pr.2.shares) :
    ∀ pr ∈ buyPositions ps sym shares price, 0 < pr.2.shares := by
  intro pr hpr
  unfold buyPositions at hpr
  cases hget : alGet ps sym with
  | some existing =>
      rw [hget] at hpr
      rcases mem_alSet _ _ _ pr hpr with h | h
      · have hex : 0 < existing.shares :=
          hinv _ (mem_of_alGet ps sym existing hget)
        rw [h]
        simp only
        linarith
      · exact hinv _ h
  | none =>
      rw [hget] at hpr
      rcases mem_alSet _ _ _ pr hpr with h | h
      · rw [h]
        simpa using hs
      · exact hinv _ h

/-- C5 amended — after every buy, every full sell, and every partial sell of
a position holding at least 2 shares, all positions in the map keep strictly
positive shares; and a full sell removes the position outright (a position
whose share count reaches zero through the full-sell path is removed). -/
theorem c5_positive_shares_amended (st : State) (op : Op) (hinv : PosInv st)
    (hok : OkOp st op) :
    PosInv (step st op) ∧
      (∀ (sym : String) (p sc : ℚ) (tr : Trade) (st2 : State),
        sell st sym p sc true = (some tr, st2) →
        alGet st2.positions sym = none) := by
  constructor
  · cases op with
    | buyOp s p sc =>
        by_cases h1 : sizedInvestment st s p < 100
        · simpa [step, buy_noop_lowInvestment st s p sc h1] using hinv
        · by_cases h2 : sizedShares st s p < 1
          · simpa [step, buy_noop_lowShares st s p sc h1 h2] using hinv
          · have hs : (0 : ℚ) < (sizedShares st s p : ℚ) := by
              push_neg at h2
              exact_mod_cast lt_of_lt_of_le Int.zero_lt_one h2
            simp only [step, buy_exec st s p sc h1 h2]
            exact buyPositions_posInv st.positions s _ p hs hinv
    | sellOp s p sc a =>
        cases hget : alGet st.positions s with
        | none => simpa [step, sell_noop_noPosition st s p sc a hget] using hinv
        | some position =>
            by_cases h0 : position.shares ≤ 0
            · simpa [step, sell_noop_emptyPosition st s p sc a position hget h0]
                using hinv
            · simp only [step, sell_exec st s p sc a position hget h0]
              cases a with
              | true =>
                  simp only [if_pos rfl]
                  intro pr hpr
                  exact hinv _ (mem_alDel st.positions s pr hpr)
              | false =>
                  have h2 : 2 ≤ position.shares := hok position hget
                  have hceil : (⌈position.shares / 2⌉ : ℚ) <
                      position.shares / 2 + 1 := Int.ceil_lt_add_one _
                  simp only [Bool.false_eq_true, if_false, sharesToSellOf]
                  intro pr hpr
                  rcases mem_alSet _ _ _ pr hpr with h | h
                  · rw [h]
                    simp only
                    linarith
                  · exact hinv _ h
  · intro sym p sc tr st2 hsell
    cases hget : alGet st.positions sym with
    | none =>
        rw [sell_noop_noPosition st sym p sc true hget] at hsell
        exact absurd (congrArg Prod.fst hsell) (by simp)
    | some position =>
        by_cases h0 : position.shares ≤ 0
        · rw [sell_noop_emptyPosition st sym p sc true position hget h0]
            at hsell
          exact absurd (congrArg Prod.fst hsell) (by simp)
        · rw [sell_exec st sym p sc true position hget h0] at hsell
          have hst := congrArg Prod.snd hsell
          simp only at hst
          rw [← hst]
          simp only [if_pos rfl]
          exact alGet_alDel_same st.positions sym

theorem c5_positive_shares_amended_witness :
    PosInv (step (initState 1000) (Op.buyOp "A" 10 60)) := by
  have h := c5_positive_shares_amended (initState 1000) (Op.buyOp "A" 10 60)
    (by intro pr hpr; simp [initState] at hpr) (by trivial)
  exact h.1

/-- C8 — Invalid ledger operations are no-ops that return `null` and leave
the whole state (cash, positions, trade history) unchanged: a buy whose
sized investment is below the 100 minimum notional, a buy sizing fewer than
1 whole share, and a sell with no position for the symbol.  All operations
are total Lean functions: no exception paths exist. -/
theorem c8_invalid_operation_noop :
    (∀ (st : State) (sym : String) (p sc : ℚ),
      sizedInvestment st sym p < 100 → buy st sym p sc = (none, st)) ∧
    (∀ (st : State) (sym : String) (p sc : ℚ),
      ¬ sizedInvestment st sym p < 100 → sizedShares st sym p < 1 →
      buy st sym p sc = (none, st)) ∧
    (∀ (st : State) (sym : String) (p sc : ℚ) (sellAll : Bool),
      alGet st.positions sym = none → sell st sym p sc sellAll = (none, st)) :=
  ⟨buy_noop_lowInvestment, buy_noop_lowShares,
   fun st sym p sc sellAll hget =>
     sell_noop_noPosition st sym p sc sellAll hget⟩

theorem c8_invalid_operation_noop_witness :
    buy (initState 50) "A" 10 60 = (none, initState 50) ∧
    sell (initState 50) "A" 10 60 true = (none, initState 50) := by
  constructor
  · exact c8_invalid_operation_noop.1 (initState 50) "A" 10 60
      (by norm_num [sizedInvestment, getTotalValue, initState,
        MAX_POSITION_SIZE, min_def])
  · exact c8_invalid_operation_noop.2.2 (initState 50) "A" 10 60 true
      (by norm_num [alGet, initState])

end Paper

/-! ### Chiron meta-optimizer (`ChironEngine`, src/unnamed/part_000) -/

namespace Chiron

/-- `ModuleWeights`: the 8 named weight slots, in source declaration order. -/
structure ModuleWeights where
  atlas : ℚ
  orion : ℚ
  aether : ℚ
  demeter : ℚ
  phoenix : ℚ
  hermes : ℚ
  athena : ℚ
  cronos : ℚ
deriving DecidableEq

/-- `ChironMarketRegime`. -/
inductive MarketRegime where
  | Neutral
  | Trend
  | Chop
  | RiskOff
  | NewsShock
deriving DecidableEq

/-- `ChironContext`; all optional numeric fields are `Option ℚ`. -/
structure ChironContext where
  atlasScore : Option ℚ
  orionScore : Option ℚ
  aetherScore : Option ℚ
  phoenixScore : Option ℚ
  hermesScore : Option ℚ
  demeterScore : Option ℚ
  athenaScore : Option ℚ
  cronosScore : Option ℚ
  symbol : String
  orionTrendStrength : Option ℚ
  chopIndex : Option ℚ
  volatilityHint : Option ℚ
  isHermesAvailable : Bool

/-- A core/pulse pair of weight tables, the shape returned by
`getBaseWeights` and consumed by `blendWeights`. -/
structure WeightPair where
  core : ModuleWeights
  pulse : ModuleWeights
deriving DecidableEq

/-- `ChironEngine.detectRegime`: ordered priority Risk-Off → Trend → Chop →
Neutral, with `?? 50` defaults for missing context fields. -/
def detectRegime (context : ChironContext) : MarketRegime :=
  let orion := context.orionScore.getD 50
  let aether := context.aetherScore.getD 50
  let chop := context.chopIndex.getD 50
  if aether < 40 then MarketRegime.RiskOff
  else if 60 ≤ orion ∧ chop < 45 then MarketRegime.Trend
  else if 60 < chop then MarketRegime.Chop
  else MarketRegime.Neutral

/-- `ChironEngine.getBaseWeights`: the hand-specified regime weight tables
(the `default` case covers `Neutral` and `News Shock`). -/
def getBaseWeights (regime : MarketRegime) : WeightPair :=
  match regime with
  | MarketRegime.Trend =>
      ⟨⟨0.20, 0.25, 0.20, 0.15, 0.10, 0.05, 0.05, 0⟩,
       ⟨0.10, 0.35, 0.15, 0.10, 0.20, 0.05, 0.05, 0⟩⟩
  | MarketRegime.Chop =>
      ⟨⟨0.30, 0.15, 0.25, 0.15, 0.05, 0.05, 0.05, 0⟩,
       ⟨0.20, 0.20, 0.20, 0.15, 0.15, 0.05, 0.05, 0⟩⟩
  | MarketRegime.RiskOff =>
      ⟨⟨0.35, 0.10, 0.30, 0.15, 0, 0.05, 0.05, 0⟩,
       ⟨0.25, 0.15, 0.30, 0.15, 0.05, 0.05, 0.05, 0⟩⟩
  | _ =>
      ⟨⟨0.25, 0.20, 0.20, 0.15, 0.05, 0.05, 0.10, 0⟩,
       ⟨0.15, 0.25, 0.20, 0.10, 0.15, 0.10, 0.05, 0⟩⟩

/-- `StoredWeights` persisted by `storeLearnings`; `learningNotes` and
`timestamp` carry no decision content but are kept for shape fidelity. -/
structure StoredWeights where
  coreWeights : ModuleWeights
  pulseWeights : ModuleWeights
  learningNotes : List String
  timestamp : ℤ

/-- The per-slot convex blend `baseW * (1 - factor) + learnedW * factor`
performed by `blendWeights`. -/
def blendWeight (baseW learnedW : ModuleWeights) (factor : ℚ) :
    ModuleWeights :=
  ⟨baseW.atlas * (1 - factor) + learnedW.atlas * factor,
   baseW.orion * (1 - factor) + learnedW.orion * factor,
   baseW.aether * (1 - factor) + learnedW.aether * factor,
   baseW.demeter * (1 - factor) + learnedW.demeter * factor,
   baseW.phoenix * (1 - factor) + learnedW.phoenix * factor,
   baseW.hermes * (1 - factor) + learnedW.hermes * factor,
   baseW.athena * (1 - factor) + learnedW.athena * factor,
   baseW.cronos * (1 - factor) + learnedW.cronos * factor⟩

/-- `ChironEngine.blendWeights`. -/
def blendWeights (base : WeightPair) (learned : StoredWeights)
    (factor : ℚ) : WeightPair :=
  ⟨blendWeight base.core learned.coreWeights factor,
   blendWeight base.pulse learned.pulseWeights factor⟩

/-- The slot sum computed at the top of `normalizeWeights`. -/
def sumWeights (w : ModuleWeights) : ℚ :=
  w.atlas + w.orion + w.aether + w.demeter + w.phoenix + w.hermes +
    w.athena + w.cronos

/-- `ChironEngine.normalizeWeights`: divide every slot by the sum, returning
the input unchanged when the sum is `0`. -/
def normalizeWeights (weights : ModuleWeights) : ModuleWeights :=
  let sum := sumWeights weights
  if sum = 0 then weights
  else
    ⟨weights.atlas / sum, weights.orion / sum, weights.aether / sum,
     weights.demeter / sum, weights.phoenix / sum, weights.hermes / sum,
     weights.athena / sum, weights.cronos / sum⟩

/-- The fields of `ChironResult` consumed by the decision engine
(`learningNotes` is display-only). -/
structure ChironResult where
  regime : MarketRegime
  coreWeights : ModuleWeights
  pulseWeights : ModuleWeights

/-- `ChironEngine.evaluate`, with the engine's `dynamicConfig` instance state
passed explicitly (it is `null` until `storeLearnings` is invoked). -/
def evaluate (context : ChironContext)
    (dynamicConfig : Option StoredWeights) : ChironResult :=
  let regime := detectRegime context
  let base := getBaseWeights regime
  let weights :=
    match dynamicConfig with
    | some learned => blendWeights base learned 0.6
    | none => base
  ⟨regime, normalizeWeights weights.core, normalizeWeights weights.pulse⟩

/-- The all-zero weight vector. -/
def zeroWeights : ModuleWeights := ⟨0, 0, 0, 0, 0, 0, 0, 0⟩

/-- Every slot of the weight vector is non-negative. -/
def WeightsNonneg (w : ModuleWeights) : Prop :=
  0 ≤ w.atlas ∧ 0 ≤ w.orion ∧ 0 ≤ w.aether ∧ 0 ≤ w.demeter ∧
    0 ≤ w.phoenix ∧ 0 ≤ w.hermes ∧ 0 ≤ w.athena ∧ 0 ≤ w.cronos

/-- A stored learned configuration with non-negative slots in both
variants. -/
def StoredNonneg (cfg : Option StoredWeights) : Prop :=
  ∀ sw ∈ cfg, WeightsNonneg sw.coreWeights ∧ WeightsNonneg sw.pulseWeights

theorem getBaseWeights_nonneg (regime : MarketRegime) :
    WeightsNonneg (getBaseWeights regime).core ∧
      WeightsNonneg (getBaseWeights regime).pulse := by
  cases regime <;> norm_num [getBaseWeights, WeightsNonneg]

theorem blendWeight_nonneg (baseW learnedW : ModuleWeights) (factor : ℚ)
    (hb : WeightsNonneg baseW) (hl : WeightsNonneg learnedW)
    (hf : 0 ≤ factor) (hf1 : factor ≤ 1) :
    WeightsNonneg (blendWeight baseW learnedW factor) := by
  obtain ⟨b1, b2, b3, b4, b5, b6, b7, b8⟩ := hb
  obtain ⟨l1, l2, l3, l4, l5, l6, l7, l8⟩ := hl
  have h1f : (0 : ℚ) ≤ 1 - factor := by linarith
  exact ⟨add_nonneg (mul_nonneg b1 h1f) (mul_nonneg l1 hf),
    add_nonneg (mul_nonneg b2 h1f) (mul_nonneg l2 hf),
    add_nonneg (mul_nonneg b3 h1f) (mul_nonneg l3 hf),
    add_nonneg (mul_nonneg b4 h1f) (mul_nonneg l4 hf),
    add_nonneg (mul_nonneg b5 h1f) (mul_nonneg l5 hf),
    add_nonneg (mul_nonneg b6 h1f) (mul_nonneg l6 hf),
    add_nonneg (mul_nonneg b7 h1f) (mul_nonneg l7 hf),
    add_nonneg (mul_nonneg b8 h1f) (mul_nonneg l8 hf)⟩

theorem sumWeights_nonneg (w : ModuleWeights) (h : WeightsNonneg w) :
    0 ≤ sumWeights w := by
  obtain ⟨h1, h2, h3, h4, h5, h6, h7, h8⟩ := h
  unfold sumWeights
  linarith

theorem normalizeWeights_nonneg (w : ModuleWeights) (h : WeightsNonneg w) :
    WeightsNonneg (normalizeWeights w) := by
  obtain ⟨h1, h2, h3, h4, h5, h6, h7, h8⟩ := h
  have hsum : 0 ≤ sumWeights w := sumWeights_nonneg w ⟨h1, h2, h3, h4, h5, h6, h7, h8⟩
  unfold normalizeWeights
  simp only
  split_ifs with h0
  · exact ⟨h1, h2, h3, h4, h5, h6, h7, h8⟩
  · exact ⟨div_nonneg h1 hsum, div_nonneg h2 hsum, div_nonneg h3 hsum,
      div_nonneg h4 hsum, div_nonneg h5 hsum, div_nonneg h6 hsum,
      div_nonneg h7 hsum, div_nonneg h8 hsum⟩

theorem evaluate_weights_nonneg (context : ChironContext)
    (cfg : Option StoredWeights) (hcfg : StoredNonneg cfg) :
    WeightsNonneg (evaluate context cfg).coreWeights ∧
      WeightsNonneg (evaluate context cfg).pulseWeights := by
  have hbase := getBaseWeights_nonneg (detectRegime context)
  cases cfg with
  | none =>
      exact ⟨normalizeWeights_nonneg _ hbase.1, normalizeWeights_nonneg _ hbase.2⟩
  | some sw =>
      have hsw := hcfg sw rfl
      exact ⟨normalizeWeights_nonneg _
          (blendWeight_nonneg _ _ _ hbase.1 hsw.1 (by norm_num) (by norm_num)),
        normalizeWeights_nonneg _
          (blendWeight_nonneg _ _ _ hbase.2 hsw.2 (by norm_num) (by norm_num))⟩

/-- C7 — `normalizeWeights` applied to any weight vector with non-zero slot
sum yields a vector whose slots sum to exactly 1 (the arithmetic is exact
rational arithmetic, so no floating-point tolerance is needed), and
`normalizeWeights` applied to the all-zero vector is the identity. -/
theorem c7_normalize_weights :
    (∀ w : ModuleWeights, sumWeights w ≠ 0 →
        sumWeights (normalizeWeights w) = 1) ∧
      normalizeWeights zeroWeights = zeroWeights := by
  constructor
  · intro w hsum
    unfold normalizeWeights
    rw [if_neg hsum]
    unfold sumWeights at hsum ⊢
    have hcollect :
        w.atlas / (w.atlas + w.orion + w.aether + w.demeter + w.phoenix +
            w.hermes + w.athena + w.cronos) +
          w.orion / (w.atlas + w.orion + w.aether + w.demeter + w.phoenix +
            w.hermes + w.athena + w.cronos) +
          w.aether / (w.atlas + w.orion + w.aether + w.demeter + w.phoenix +
            w.hermes + w.athena + w.cronos) +
          w.demeter / (w.atlas + w.orion + w.aether + w.demeter + w.phoenix +
            w.hermes + w.athena + w.cronos) +
          w.phoenix / (w.atlas + w.orion + w.aether + w.demeter + w.phoenix +
            w.hermes + w.athena + w.cronos) +
          w.hermes / (w.atlas + w.orion + w.aether + w.demeter + w.phoenix +
            w.hermes + w.athena + w.cronos) +
          w.athena / (w.atlas + w.orion + w.aether + w.demeter + w.phoenix +
            w.hermes + w.athena + w.cronos) +
          w.cronos / (w.atlas + w.orion + w.aether + w.demeter + w.phoenix +
            w.hermes + w.athena + w.cronos) =
          (w.atlas + w.orion + w.aether + w.demeter + w.phoenix + w.hermes +
            w.athena + w.cronos) /
            (w.atlas + w.orion + w.aether + w.demeter + w.phoenix + w.hermes +
              w.athena + w.cronos) := by
      ring
    exact hcollect.trans (div_self hsum)
  · norm_num [normalizeWeights, sumWeights, zeroWeights]

theorem c7_normalize_weights_witness :
    sumWeights (normalizeWeights ⟨1, 1, 1, 1, 1, 1, 1, 1⟩) = 1 :=
  c7_normalize_weights.1 ⟨1, 1, 1, 1, 1, 1, 1, 1⟩ (by norm_num [sumWeights])

end Chiron

/-! ### Decision synthesis (`ArgusDecisionEngine`,
src/src/services/ArgusDecisionEngine.ts) -/

namespace Decision

open Chiron

inductive Confidence where
  | High
  | Medium
  | Low
deriving DecidableEq

/-- A module engine result reduced to its numeric `score` field; the
display-only companion fields (factors, statuses, reasons) are not consumed
by the decision arithmetic modelled here. -/
structure ModuleResult where
  score : ℚ
deriving DecidableEq

/-- The `newsSentiment` input `{ score, summary }`. -/
structure NewsSentiment where
  score : ℚ
  summary : String
deriving DecidableEq

/-- `ModuleScores`: optional numeric slots, one per module plus news. -/
structure ModuleScores where
  atlas : Option ℚ
  orion : Option ℚ
  phoenix : Option ℚ
  aether : Option ℚ
  demeter : Option ℚ
  cronos : Option ℚ
  news : Option ℚ
deriving DecidableEq

/-- `ModuleInputs` as consumed by `makeDecision`. -/
structure ModuleInputs where
  atlas : Option ModuleResult
  orion : Option ModuleResult
  phoenix : Option ModuleResult
  aether : Option ModuleResult
  demeter : Option ModuleResult
  cronos : Option ModuleResult
  newsSentiment : Option NewsSentiment
  symbol : String

/-- The `moduleScores` record built at the top of `makeDecision`: each
module slot carries `inputs.<module>?.score`, and the news slot carries
`Math.round(inputs.newsSentiment.score * 100)` when a sentiment is
provided. -/
def moduleScoresOf (inputs : ModuleInputs) : ModuleScores :=
  ⟨inputs.atlas.map (fun r => r.score),
   inputs.orion.map (fun r => r.score),
   inputs.phoenix.map (fun r => r.score),
   inputs.aether.map (fun r => r.score),
   inputs.demeter.map (fun r => r.score),
   inputs.cronos.map (fun r => r.score),
   inputs.newsSentiment.map (fun s => ((round (s.score * 100) : ℤ) : ℚ))⟩

/-- The `chironContext` built by `makeDecision` (no `hermesScore`,
`athenaScore`, `orionTrendStrength`, `chopIndex` or `volatilityHint` is
supplied there). -/
def chironContextOf (inputs : ModuleInputs) : ChironContext :=
  let scores := moduleScoresOf inputs
  ⟨scores.atlas, scores.orion, scores.aether, scores.phoenix, none,
   scores.demeter, none, scores.cronos, inputs.symbol, none, none, none,
   inputs.newsSentiment.isSome⟩

/-- `Math.max(0, Math.min(100, x))`, the clamp applied to the normalized
news score. -/
def clampScore (x : ℚ) : ℚ := max 0 (min 100 x)

/-- One conditional accumulation step of `calculateWeightedScore`: a present
score contributes `(score * weight, weight)`; an absent one contributes
nothing. -/
def contribution (s : Option ℚ) (wt : ℚ) : ℚ × ℚ :=
  match s with
  | some v => (v * wt, wt)
  | none => (0, 0)

/-- The `weightedSum` accumulated by `calculateWeightedScore`; the news slot
is first normalized to `clampScore (50 + news / 2)` and weighted by the
`hermes` slot. -/
def weightedSumOf (scores : ModuleScores) (w : ModuleWeights) : ℚ :=
  (contribution scores.atlas w.atlas).1 +
  (contribution scores.orion w.orion).1 +
  (contribution scores.phoenix w.phoenix).1 +
  (contribution scores.aether w.aether).1 +
  (contribution scores.demeter w.demeter).1 +
  (contribution scores.cronos w.cronos).1 +
  (contribution (scores.news.map (fun n => clampScore (50 + n / 2)))
    w.hermes).1

/-- The `totalWeight` accumulated by `calculateWeightedScore`. -/
def totalWeightOf (scores : ModuleScores) (w : ModuleWeights) : ℚ :=
  (contribution scores.atlas w.atlas).2 +
  (contribution scores.orion w.orion).2 +
  (contribution scores.phoenix w.phoenix).2 +
  (contribution scores.aether w.aether).2 +
  (contribution scores.demeter w.demeter).2 +
  (contribution scores.cronos w.cronos).2 +
  (contribution (scores.news.map (fun n => clampScore (50 + n / 2)))
    w.hermes).2

/-- `ArgusDecisionEngine.calculateWeightedScore`: `50` when no weight was
accumulated, else `weightedSum / totalWeight`. -/
def calculateWeightedScore (scores : ModuleScores) (w : ModuleWeights) : ℚ :=
  if totalWeightOf scores w = 0 then 50
  else weightedSumOf scores w / totalWeightOf scores w

/-- `Object.values(scores).filter(s => s !== undefined).length`. -/
def countPresent (scores : ModuleScores) : ℕ :=
  [scores.atlas, scores.orion, scores.phoenix, scores.aether, scores.demeter,
   scores.cronos, scores.news].countP (fun s => s.isSome)

/-- `ArgusDecisionEngine.calculateConfidence`. -/
def calculateConfidence (coreScore pulseScore newsScore : ℚ)
    (scores : ModuleScores) : Confidence :=
  if countPresent scores < 3 then Confidence.Low
  else
    let scoreDiff := |coreScore - pulseScore|
    if scoreDiff < 15 then
      if (65 ≤ coreScore ∧ 65 ≤ pulseScore ∧ 20 < newsScore) ∨
          (coreScore ≤ 35 ∧ pulseScore ≤ 35 ∧ newsScore < -20) then
        Confidence.High
      else Confidence.Medium
    else if scoreDiff < 30 then Confidence.Medium
    else Confidence.Low

/-- The numeric and categorical fields of `ArgusDecision`.  The signal
labels and generated texts (`coreSignal`, `explanation`, `actionItems`,
`warnings`, …) are deterministic presentation derived from these numbers
and are not modelled. -/
structure ArgusDecision where
  coreScore : ℤ
  pulseScore : ℤ
  newsScore : ℚ
  compositeScore : ℤ
  confidence : Confidence
  moduleScores : ModuleScores
deriving DecidableEq

/-- `ArgusDecisionEngine.makeDecision`, with Chiron's stored
`dynamicConfig` passed explicitly.  JS `Math.round` is Mathlib `round`
(both are `⌊x + 1/2⌋`). -/
def makeDecision (inputs : ModuleInputs)
    (dynamicConfig : Option StoredWeights) : ArgusDecision :=
  let moduleScores := moduleScoresOf inputs
  let chiron := Chiron.evaluate (chironContextOf inputs) dynamicConfig
  let coreScore := calculateWeightedScore moduleScores chiron.coreWeights
  let pulseScore := calculateWeightedScore moduleScores chiron.pulseWeights
  let newsScore := moduleScores.news.getD 0
  let normalizedNewsScore := clampScore (50 + newsScore / 2)
  let compositeScore :=
    round (coreScore * 0.4 + pulseScore * 0.45 + normalizedNewsScore * 0.15)
  let confidence :=
    calculateConfidence coreScore pulseScore newsScore moduleScores
  ⟨round coreScore, round pulseScore, newsScore, compositeScore, confidence,
   moduleScores⟩

/-- The decision inputs with every module result and the sentiment absent. -/
def noInputs (sym : String) : ModuleInputs :=
  ⟨none, none, none, none, none, none, none, sym⟩

theorem clampScore_mem (x : ℚ) : 0 ≤ clampScore x ∧ clampScore x ≤ 100 :=
  ⟨le_max_left 0 _, max_le (by norm_num) (min_le_left 100 x)⟩

/-- Any value present in the option lies in `[0, 100]`. -/
def OptInRange (o : Option ℚ) : Prop :=
  match o with
  | none => True
  | some x => 0 ≤ x ∧ x ≤ 100

/-- Every present module slot lies in `[0, 100]` (the news slot is exempt:
it is clamped inside the weighted sum). -/
def ScoresInRange (scores : ModuleScores) : Prop :=
  OptInRange scores.atlas ∧ OptInRange scores.orion ∧
    OptInRange scores.phoenix ∧ OptInRange scores.aether ∧
    OptInRange scores.demeter ∧ OptInRange scores.cronos

theorem contribution_bounds (s : Option ℚ) (wt : ℚ) (hw : 0 ≤ wt)
    (hs : OptInRange s) :
    0 ≤ (contribution s wt).2 ∧ 0 ≤ (contribution s wt).1 ∧
      (contribution s wt).1 ≤ 100 * (contribution s wt).2 := by
  cases s with
  | none => simp [contribution]
  | some v =>
      obtain ⟨h1, h2⟩ := hs
      exact ⟨hw, mul_nonneg h1 hw, mul_le_mul_of_nonneg_right h2 hw⟩

theorem news_slot_range (o : Option ℚ) :
    OptInRange (o.map (fun n => clampScore (50 + n / 2))) := by
  cases o with
  | none => trivial
  | some n => exact clampScore_mem _

theorem calculateWeightedScore_bounds (scores : ModuleScores)
    (w : ModuleWeights) (hs : ScoresInRange scores) (hw : WeightsNonneg w) :
    0 ≤ calculateWeightedScore scores w ∧
      calculateWeightedScore scores w ≤ 100 := by
  obtain ⟨hs1, hs2, hs3, hs4, hs5, hs6⟩ := hs
  obtain ⟨hw1, hw2, hw3, hw4, hw5, hw6, hw7, hw8⟩ := hw
  have c1 := contribution_bounds scores.atlas w.atlas hw1 hs1
  have c2 := contribution_bounds scores.orion w.orion hw2 hs2
  have c3 := contribution_bounds scores.phoenix w.phoenix hw5 hs3
  have c4 := contribution_bounds scores.aether w.aether hw3 hs4
  have c5 := contribution_bounds scores.demeter w.demeter hw4 hs5
  have c6 := contribution_bounds scores.cronos w.cronos hw8 hs6
  have c7 := contribution_bounds
    (scores.news.map (fun n => clampScore (50 + n / 2))) w.hermes hw6
    (news_slot_range scores.news)
  unfold calculateWeightedScore
  split_ifs with h0
  · norm_num
  · have htw0 : 0 ≤ totalWeightOf scores w := by
      unfold totalWeightOf
      linarith [c1.1, c2.1, c3.1, c4.1, c5.1, c6.1, c7.1]
    have htw : 0 < totalWeightOf scores w := lt_of_le_of_ne htw0 (Ne.symm h0)
    have hws0 : 0 ≤ weightedSumOf scores w := by
      unfold weightedSumOf
      linarith [c1.2.1, c2.2.1, c3.2.1, c4.2.1, c5.2.1, c6.2.1, c7.2.1]
    have hwsle : weightedSumOf scores w ≤ 100 * totalWeightOf scores w := by
      unfold weightedSumOf totalWeightOf
      linarith [c1.2.2, c2.2.2, c3.2.2, c4.2.2, c5.2.2, c6.2.2, c7.2.2]
    refine ⟨div_nonneg hws0 (le_of_lt htw), ?_⟩
    rw [div_le_iff₀ htw]
    linarith

theorem round_bounds (lo hi : ℤ) (x : ℚ) (hl : (lo : ℚ) ≤ x)
    (hu : x ≤ (hi : ℚ)) : lo ≤ round x ∧ round x ≤ hi := by
  rw [round_eq]
  constructor
  · exact Int.le_floor.mpr (by linarith)
  · have hmono : ⌊x + 1 / 2⌋ ≤ ⌊(hi : ℚ) + 1 / 2⌋ :=
      Int.floor_le_floor (by linarith)
    have heval : ⌊(hi : ℚ) + 1 / 2⌋ = hi := by
      rw [Int.floor_eq_iff]
      refine ⟨by linarith, by linarith⟩
    linarith [hmono, heval.le, heval.ge]

theorem makeDecision_newsScore (inputs : ModuleInputs)
    (cfg : Option StoredWeights) :
    (makeDecision inputs cfg).newsScore =
      (moduleScoresOf inputs).news.getD 0 := rfl

theorem makeDecision_coreScore (inputs : ModuleInputs)
    (cfg : Option StoredWeights) :
    (makeDecision inputs cfg).coreScore =
      round (calculateWeightedScore (moduleScoresOf inputs)
        (Chiron.evaluate (chironContextOf inputs) cfg).coreWeights) := rfl

theorem makeDecision_pulseScore (inputs : ModuleInputs)
    (cfg : Option StoredWeights) :
    (makeDecision inputs cfg).pulseScore =
      round (calculateWeightedScore (moduleScoresOf inputs)
        (Chiron.evaluate (chironContextOf inputs) cfg).pulseWeights) := rfl

theorem makeDecision_compositeScore (inputs : ModuleInputs)
    (cfg : Option StoredWeights) :
    (makeDecision inputs cfg).compositeScore =
      round
        (calculateWeightedScore (moduleScoresOf inputs)
            (Chiron.evaluate (chironContextOf inputs) cfg).coreWeights * 0.4 +
          calculateWeightedScore (moduleScoresOf inputs)
            (Chiron.evaluate (chironContextOf inputs) cfg).pulseWeights
            * 0.45 +
          clampScore (50 + (moduleScoresOf inputs).news.getD 0 / 2) * 0.15) :=
  rfl

theorem makeDecision_confidence (inputs : ModuleInputs)
    (cfg : Option StoredWeights) :
    (makeDecision inputs cfg).confidence =
      calculateConfidence
        (calculateWeightedScore (moduleScoresOf inputs)
          (Chiron.evaluate (chironContextOf inputs) cfg).coreWeights)
        (calculateWeightedScore (moduleScoresOf inputs)
          (Chiron.evaluate (chironContextOf inputs) cfg).pulseWeights)
        ((moduleScoresOf inputs).news.getD 0) (moduleScoresOf inputs) := rfl

/-- C2 — `makeDecision` computes
`compositeScore = round(0.40·core + 0.45·pulse + 0.15·normalizedNews)` where
`core` and `pulse` are the weighted scores (before their own final rounding)
and `normalizedNews = 50 + newsScore/2` clamped to `[0,100]`; and whenever
every present module score lies in `[0,100]` (the module contract) and any
stored learned weights are slot-wise non-negative, the composite score lies
in `[0,100]`. -/
theorem c2_composite_formula_and_range (inputs : ModuleInputs)
    (cfg : Option StoredWeights)
    (hs : ScoresInRange (moduleScoresOf inputs)) (hcfg : StoredNonneg cfg) :
    (makeDecision inputs cfg).compositeScore =
      round
        (calculateWeightedScore (moduleScoresOf inputs)
            (Chiron.evaluate (chironContextOf inputs) cfg).coreWeights * 0.4 +
          calculateWeightedScore (moduleScoresOf inputs)
            (Chiron.evaluate (chironContextOf inputs) cfg).pulseWeights
            * 0.45 +
          clampScore (50 + (makeDecision inputs cfg).newsScore / 2) * 0.15) ∧
      0 ≤ (makeDecision inputs cfg).compositeScore ∧
      (makeDecision inputs cfg).compositeScore ≤ 100 := by
  have hw := evaluate_weights_nonneg (chironContextOf inputs) cfg hcfg
  have hcore := calculateWeightedScore_bounds (moduleScoresOf inputs)
    (Chiron.evaluate (chironContextOf inputs) cfg).coreWeights hs hw.1
  have hpulse := calculateWeightedScore_bounds (moduleScoresOf inputs)
    (Chiron.evaluate (chironContextOf inputs) cfg).pulseWeights hs hw.2
  have hnn := clampScore_mem (50 + (moduleScoresOf inputs).news.getD 0 / 2)
  have hb := round_bounds 0 100
    (calculateWeightedScore (moduleScoresOf inputs)
        (Chiron.evaluate (chironContextOf inputs) cfg).coreWeights * 0.4 +
      calculateWeightedScore (moduleScoresOf inputs)
        (Chiron.evaluate (chironContextOf inputs) cfg).pulseWeights * 0.45 +
      clampScore (50 + (moduleScoresOf inputs).news.getD 0 / 2) * 0.15)
    (by push_cast; nlinarith [hcore.1, hpulse.1, hnn.1])
    (by push_cast; nlinarith [hcore.2, hpulse.2, hnn.2])
  refine ⟨makeDecision_compositeScore inputs cfg, ?_, ?_⟩
  · rw [makeDecision_compositeScore inputs cfg]
    exact hb.1
  · rw [makeDecision_compositeScore inputs cfg]
    exact hb.2

theorem c2_composite_formula_and_range_witness :
    0 ≤ (makeDecision
        ⟨some ⟨70⟩, some ⟨60⟩, some ⟨55⟩, none, none, none, none, "AAPL"⟩
        none).compositeScore := by
  have h := c2_composite_formula_and_range
    ⟨some ⟨70⟩, some ⟨60⟩, some ⟨55⟩, none, none, none, none, "AAPL"⟩ none
    (by
      refine ⟨?_, ?_, ?_, ?_, ?_, ?_⟩ <;>
        norm_num [moduleScoresOf, OptInRange])
    (by intro sw hsw; simp at hsw)
  exact h.2.1

/-- C6 — whenever fewer than 3 module slots carry a score, the decision's
confidence is `Low`, regardless of the score values. -/
theorem c6_low_confidence_few_modules (inputs : ModuleInputs)
    (cfg : Option StoredWeights)
    (h : countPresent (moduleScoresOf inputs) < 3) :
    (makeDecision inputs cfg).confidence = Confidence.Low := by
  rw [makeDecision_confidence inputs cfg]
  unfold calculateConfidence
  rw [if_pos h]

theorem c6_low_confidence_few_modules_witness :
    (makeDecision
        ⟨some ⟨95⟩, some ⟨95⟩, none, none, none, none, none, "AAPL"⟩
        none).confidence = Confidence.Low :=
  c6_low_confidence_few_modules
    ⟨some ⟨95⟩, some ⟨95⟩, none, none, none, none, none, "AAPL"⟩ none
    (by norm_num [countPresent, moduleScoresOf])

/-- C10 — when no module reports a score at all, the weighted-average
computation returns the neutral 50 for every weight vector (hence for both
the core and pulse variants), and `makeDecision` yields
`coreScore = pulseScore = compositeScore = 50`. -/
theorem c10_all_modules_absent_neutral (sym : String)
    (cfg : Option StoredWeights) :
    (∀ w : ModuleWeights,
        calculateWeightedScore (moduleScoresOf (noInputs sym)) w = 50) ∧
      (makeDecision (noInputs sym) cfg).coreScore = 50 ∧
      (makeDecision (noInputs sym) cfg).pulseScore = 50 ∧
      (makeDecision (noInputs sym) cfg).compositeScore = 50 := by
  have hw : ∀ w : ModuleWeights,
      calculateWeightedScore (moduleScoresOf (noInputs sym)) w = 50 := by
    intro w
    have htw : totalWeightOf (moduleScoresOf (noInputs sym)) w = 0 := by
      simp [totalWeightOf, moduleScoresOf, noInputs, contribution]
    unfold calculateWeightedScore
    rw [if_pos htw]
  have hround50 : round (50 : ℚ) = 50 := by
    norm_num [round_eq, Int.floor_eq_iff]
  refine ⟨hw, ?_, ?_, ?_⟩
  · rw [makeDecision_coreScore (noInputs sym) cfg, hw]
    exact hround50
  · rw [makeDecision_pulseScore (noInputs sym) cfg, hw]
    exact hround50
  · rw [makeDecision_compositeScore (noInputs sym) cfg, hw, hw]
    have hnews : (moduleScoresOf (noInputs sym)).news.getD 0 = 0 := rfl
    rw [hnews]
    have hclamp : clampScore (50 + 0 / 2) = 50 := by
      norm_num [clampScore]
    rw [hclamp]
    norm_num [round_eq, Int.floor_eq_iff]

/-- The concrete decision inputs of the C9 counterexample: a sentiment with
score `1/2` is supplied and one module (atlas) is present. -/
def c9Inputs : ModuleInputs :=
  ⟨some ⟨70⟩, none, none, none, none, none, some ⟨1 / 2, "positive"⟩, "NVDA"⟩

/-- C9 counterexample — the decision's `newsScore` does not equal the
externally supplied sentiment score: `makeDecision` stores
`Math.round(sentiment.score * 100)`, so a supplied score of `1/2` yields
`newsScore = 50 ≠ 1/2` (the provider scale is `[-1, 1]`, not `[-100, 100]`).
-/
theorem c9_news_scale_counterexample :
    (makeDecision c9Inputs none).newsScore = 50 ∧ (1 : ℚ) / 2 ≠ 50 := by
  constructor
  · rw [makeDecision_newsScore c9Inputs none]
    have : (moduleScoresOf c9Inputs).news =
        some ((round ((1 : ℚ) / 2 * 100) : ℤ) : ℚ) := rfl
    rw [this]
    norm_num [round_eq, Int.floor_eq_iff]
  · norm_num

/-- C9 amended — `newsScore` equals `round(100 × suppliedScore)` when a
sentiment is provided (the supplied score lives on the `[-1, 1]` scale, and
then `newsScore ∈ [-100, 100]`), and `0` when the sentiment is absent
(absence never blocks synthesis: `makeDecision` is total and still yields a
decision); the composite blend uses
`normalizedNews = clamp(50 + newsScore/2, 0, 100)`. -/
theorem c9_news_scaled_amended (inputs : ModuleInputs)
    (cfg : Option StoredWeights) :
    (inputs.newsSentiment = none →
        (makeDecision inputs cfg).newsScore = 0) ∧
      (∀ s : NewsSentiment, inputs.newsSentiment = some s →
        (makeDecision inputs cfg).newsScore =
            ((round (s.score * 100) : ℤ) : ℚ) ∧
          (-1 ≤ s.score → s.score ≤ 1 →
            (-100 : ℚ) ≤ (makeDecision inputs cfg).newsScore ∧
              (makeDecision inputs cfg).newsScore ≤ 100)) ∧
      (makeDecision inputs cfg).compositeScore =
        round
          (calculateWeightedScore (moduleScoresOf inputs)
              (Chiron.evaluate (chironContextOf inputs) cfg).coreWeights
              * 0.4 +
            calculateWeightedScore (moduleScoresOf inputs)
              (Chiron.evaluate (chironContextOf inputs) cfg).pulseWeights
              * 0.45 +
            clampScore (50 + (makeDecision inputs cfg).newsScore / 2)
              * 0.15) := by
  refine ⟨?_, ?_, makeDecision_compositeScore inputs cfg⟩
  · intro hnone
    rw [makeDecision_newsScore inputs cfg]
    simp [moduleScoresOf, hnone]
  · intro s hsome
    have hval : (makeDecision inputs cfg).newsScore =
        ((round (s.score * 100) : ℤ) : ℚ) := by
      rw [makeDecision_newsScore inputs cfg]
      simp [moduleScoresOf, hsome]
    refine ⟨hval, fun hl hu => ?_⟩
    rw [hval]
    have hb := round_bounds (-100) 100 (s.score * 100)
      (by push_cast; nlinarith) (by push_cast; nlinarith)
    constructor
    · exact_mod_cast hb.1
    · exact_mod_cast hb.2

theorem c9_news_scaled_amended_witness :
    (makeDecision c9Inputs none).newsScore =
      ((round ((1 : ℚ) / 2 * 100) : ℤ) : ℚ) :=
  ((c9_news_scaled_amended c9Inputs none).2.1 ⟨1 / 2, "positive"⟩ rfl).1

end Decision

/-! ### Multi-AI trader pool (`MultiAIBrokerService`, src/unnamed/part_000) -/

namespace MultiAI

/-- `AIPosition` (the `symbol` field duplicates the map key and is
omitted). -/
structure AIPosition where
  shares : ℚ
  avgCost : ℚ
  currentPrice : ℚ
  pnl : ℚ
  pnlPercent : ℚ
deriving DecidableEq

inductive AIAction where
  | buyA
  | sellA
deriving DecidableEq

/-- The reason template passed to `executeBuy`/`executeSell` at each call
site inside `analyzeAndTrade`.  The code passes four distinct formatted
strings (stop-loss, take-profit, sell-signal, buy-signal); only their
identity matters, so they are modelled as tags. -/
inductive TradeReason where
  | stopLossHit
  | takeProfitHit
  | sellSignal
  | buySignal
deriving DecidableEq

/-- `AITrade` (the `id`/`timestamp` fields carry no decision content). -/
structure AITrade where
  symbol : String
  action : AIAction
  price : ℚ
  shares : ℚ
  amount : ℚ
  reason : TradeReason
  pnl : Option ℚ
deriving DecidableEq

/-- The mutable trading fields of one `AITrader` (the identity/display
fields and the derived statistics recomputed by `updateTraderStats` are
omitted). -/
structure AITrader where
  currentCash : ℚ
  positions : List (String × AIPosition)
  trades : List AITrade
  tradeCount : ℕ
deriving DecidableEq

/-- One personality's thresholds (`THRESHOLDS[personality]`, minus the
symbol universe, which the tick receives as its entry list). -/
structure TraderConfig where
  buyScore : ℚ
  sellScore : ℚ
  positionSize : ℚ
  maxPositions : ℕ
  stopLoss : ℚ
  takeProfit : ℚ
deriving DecidableEq

/-- `MultiAIBrokerService.executeBuy`: debit the amount, overwrite the
symbol's position entry, prepend a BUY trade, bump the trade count. -/
def executeBuy (trader : AITrader) (sym : String) (price amount : ℚ)
    (reason : TradeReason) : AITrader :=
  let shares := amount / price
  { trader with
      currentCash := trader.currentCash - amount
      positions := alSet trader.positions sym ⟨shares, price, price, 0, 0⟩
      trades := ⟨sym, AIAction.buyA, price, shares, amount, reason, none⟩ ::
        trader.trades
      tradeCount := trader.tradeCount + 1 }

/-- `MultiAIBrokerService.executeSell`: a no-op when no position exists,
else credit the proceeds, delete the position, prepend a SELL trade
carrying the realized P&L, bump the trade count. -/
def executeSell (trader : AITrader) (sym : String) (price : ℚ)
    (reason : TradeReason) : AITrader :=
  match alGet trader.positions sym with
  | none => trader
  | some position =>
      { trader with
          currentCash := trader.currentCash + position.shares * price
          positions := alDel trader.positions sym
          trades := ⟨sym, AIAction.sellA, price, position.shares,
            position.shares * price, reason,
            some ((price - position.avgCost) * position.shares)⟩ ::
            trader.trades
          tradeCount := trader.tradeCount + 1 }

/-- The refreshed position record written back before the exit checks. -/
def refreshedPosition (position : AIPosition) (price : ℚ) : AIPosition :=
  ⟨position.shares, position.avgCost, price,
   (price - position.avgCost) * position.shares,
   (price - position.avgCost) / position.avgCost * 100⟩

/-- The trader after the in-place refresh of the held position's
price/P&L fields. -/
def refreshTrader (trader : AITrader) (sym : String) (position : AIPosition)
    (price : ℚ) : AITrader :=
  { trader with
      positions := alSet trader.positions sym (refreshedPosition position price) }

/-- The per-symbol body of `MultiAIBrokerService.analyzeAndTrade`, given
the fetched quote price and the decision's composite score.  With a held
position: refresh its price/P&L fields in place, then run the exit checks
in order stop-loss → take-profit → sell-signal (the first two `continue`).
With no position: the entry check gated on score threshold, open-slot count
and affordability. -/
def stepSymbol (config : TraderConfig) (trader : AITrader) (sym : String)
    (price : ℚ) (compositeScore : ℚ) : AITrader :=
  match alGet trader.positions sym with
  | some position =>
      let pnlPercent := (price - position.avgCost) / position.avgCost * 100
      let trader' := refreshTrader trader sym position price
      if pnlPercent ≤ -(config.stopLoss * 100) then
        executeSell trader' sym price TradeReason.stopLossHit
      else if config.takeProfit * 100 ≤ pnlPercent then
        executeSell trader' sym price TradeReason.takeProfitHit
      else if compositeScore < config.sellScore then
        executeSell trader' sym price TradeReason.sellSignal
      else trader'
  | none =>
      if config.buyScore ≤ compositeScore then
        if trader.positions.length < config.maxPositions then
          let amount := trader.currentCash * config.positionSize
          if 10 ≤ amount ∧ amount ≤ trader.currentCash then
            executeBuy trader sym price amount TradeReason.buySignal
          else trader
        else trader
      else trader

/-- One full tick over a personality's symbol universe: each entry carries
(symbol, quote price, composite score). -/
def runTick (config : TraderConfig) (trader : AITrader)
    (entries : List (String × ℚ × ℚ)) : AITrader :=
  entries.foldl (fun tr e => stepSymbol config tr e.1 e.2.1 e.2.2) trader

theorem executeSell_exec (trader : AITrader) (sym : String) (price : ℚ)
    (reason : TradeReason) (position : AIPosition)
    (hget : alGet trader.positions sym = some position) :
    executeSell trader sym price reason =
      { trader with
          currentCash := trader.currentCash + position.shares * price
          positions := alDel trader.positions sym
          trades := ⟨sym, AIAction.sellA, price, position.shares,
            position.shares * price, reason,
            some ((price - position.avgCost) * position.shares)⟩ ::
            trader.trades
          tradeCount := trader.tradeCount + 1 } := by
  unfold executeSell
  rw [hget]

theorem stepSymbol_stopLoss_exec (config : TraderConfig) (trader : AITrader)
    (sym : String) (price comp : ℚ) (position : AIPosition)
    (hget : alGet trader.positions sym = some position)
    (hsl : (price - position.avgCost) / position.avgCost * 100 ≤
      -(config.stopLoss * 100)) :
    stepSymbol config trader sym price comp =
      executeSell (refreshTrader trader sym position price) sym price TradeReason.stopLossHit := by
  unfold stepSymbol
  rw [hget]
  dsimp only
  rw [if_pos hsl]

theorem stepSymbol_takeProfit_exec (config : TraderConfig)
    (trader : AITrader) (sym : String) (price comp : ℚ)
    (position : AIPosition)
    (hget : alGet trader.positions sym = some position)
    (hsl : ¬ (price - position.avgCost) / position.avgCost * 100 ≤
      -(config.stopLoss * 100))
    (htp : config.takeProfit * 100 ≤
      (price - position.avgCost) / position.avgCost * 100) :
    stepSymbol config trader sym price comp =
      executeSell (refreshTrader trader sym position price) sym price TradeReason.takeProfitHit := by
  unfold stepSymbol
  rw [hget]
  dsimp only
  rw [if_neg hsl, if_pos htp]

theorem stepSymbol_sellSignal_exec (config : TraderConfig)
    (trader : AITrader) (sym : String) (price comp : ℚ)
    (position : AIPosition)
    (hget : alGet trader.positions sym = some position)
    (hsl : ¬ (price - position.avgCost) / position.avgCost * 100 ≤
      -(config.stopLoss * 100))
    (htp : ¬ config.takeProfit * 100 ≤
      (price - position.avgCost) / position.avgCost * 100)
    (hcs : comp < config.sellScore) :
    stepSymbol config trader sym price comp =
      executeSell (refreshTrader trader sym position price) sym price TradeReason.sellSignal := by
  unfold stepSymbol
  rw [hget]
  dsimp only
  rw [if_neg hsl, if_neg htp, if_pos hcs]

theorem stepSymbol_hold_exec (config : TraderConfig) (trader : AITrader)
    (sym : String) (price comp : ℚ) (position : AIPosition)
    (hget : alGet trader.positions sym = some position)
    (hsl : ¬ (price - position.avgCost) / position.avgCost * 100 ≤
      -(config.stopLoss * 100))
    (htp : ¬ config.takeProfit * 100 ≤
      (price - position.avgCost) / position.avgCost * 100)
    (hcs : ¬ comp < config.sellScore) :
    stepSymbol config trader sym price comp =
      refreshTrader trader sym position price := by
  unfold stepSymbol
  rw [hget]
  dsimp only
  rw [if_neg hsl, if_neg htp, if_neg hcs]

theorem stepSymbol_held_trades (config : TraderConfig) (trader : AITrader)
    (sym : String) (price comp : ℚ) (position : AIPosition)
    (hget : alGet trader.positions sym = some position) :
    ∀ t ∈ (stepSymbol config trader sym price comp).trades,
      t ∈ trader.trades ∨ (t.action = AIAction.sellA ∧ t.symbol = sym) := by
  intro t ht
  by_cases hsl : (price - position.avgCost) / position.avgCost * 100 ≤
      -(config.stopLoss * 100)
  · rw [stepSymbol_stopLoss_exec config trader sym price comp position hget
        hsl,
      executeSell_exec _ _ _ _ _ (alGet_alSet_same _ _ _)] at ht
    rcases List.mem_cons.mp ht with rfl | h
    · exact Or.inr ⟨rfl, rfl⟩
    · exact Or.inl h
  · by_cases htp : config.takeProfit * 100 ≤
        (price - position.avgCost) / position.avgCost * 100
    · rw [stepSymbol_takeProfit_exec config trader sym price comp position
          hget hsl htp,
        executeSell_exec _ _ _ _ _ (alGet_alSet_same _ _ _)] at ht
      rcases List.mem_cons.mp ht with rfl | h
      · exact Or.inr ⟨rfl, rfl⟩
      · exact Or.inl h
    · by_cases hcs : comp < config.sellScore
      · rw [stepSymbol_sellSignal_exec config trader sym price comp position
            hget hsl htp hcs,
          executeSell_exec _ _ _ _ _ (alGet_alSet_same _ _ _)] at ht
        rcases List.mem_cons.mp ht with rfl | h
        · exact Or.inr ⟨rfl, rfl⟩
        · exact Or.inl h
      · rw [stepSymbol_hold_exec config trader sym price comp position hget
            hsl htp hcs] at ht
        exact Or.inl ht

theorem stepSymbol_trades_symbol (config : TraderConfig) (trader : AITrader)
    (s : String) (price comp : ℚ) :
    ∀ t ∈ (stepSymbol config trader s price comp).trades,
      t ∈ trader.trades ∨ t.symbol = s := by
  cases hget : alGet trader.positions s with
  | some position =>
      intro t ht
      rcases stepSymbol_held_trades config trader s price comp position hget
        t ht with h | h
      · exact Or.inl h
      · exact Or.inr h.2
  | none =>
      intro t ht
      unfold stepSymbol at ht
      rw [hget] at ht
      dsimp only at ht
      split_ifs at ht with h1 h2 h3
      · unfold executeBuy at ht
        dsimp only at ht
        rcases List.mem_cons.mp ht with rfl | h
        · exact Or.inr rfl
        · exact Or.inl h
      · exact Or.inl ht
      · exact Or.inl ht
      · exact Or.inl ht

theorem stepSymbol_other_position (config : TraderConfig)
    (trader : AITrader) (s : String) (price comp : ℚ) (sym : String)
    (hne : s ≠ sym) :
    alGet (stepSymbol config trader s price comp).positions sym =
      alGet trader.positions sym := by
  cases hget : alGet trader.positions s with
  | some position =>
      by_cases hsl : (price - position.avgCost) / position.avgCost * 100 ≤
          -(config.stopLoss * 100)
      · rw [stepSymbol_stopLoss_exec config trader s price comp position hget
            hsl,
          executeSell_exec _ _ _ _ _ (alGet_alSet_same _ _ _)]
        dsimp only
        rw [alGet_alDel_other _ _ _ hne]
        unfold refreshTrader
        dsimp only
        rw [alGet_alSet_other _ _ _ _ hne]
      · by_cases htp : config.takeProfit * 100 ≤
            (price - position.avgCost) / position.avgCost * 100
        · rw [stepSymbol_takeProfit_exec config trader s price comp position
              hget hsl htp,
            executeSell_exec _ _ _ _ _ (alGet_alSet_same _ _ _)]
          dsimp only
          rw [alGet_alDel_other _ _ _ hne]
          unfold refreshTrader
          dsimp only
          rw [alGet_alSet_other _ _ _ _ hne]
        · by_cases hcs : comp < config.sellScore
          · rw [stepSymbol_sellSignal_exec config trader s price comp
                position hget hsl htp hcs,
              executeSell_exec _ _ _ _ _ (alGet_alSet_same _ _ _)]
            dsimp only
            rw [alGet_alDel_other _ _ _ hne]
            unfold refreshTrader
            dsimp only
            rw [alGet_alSet_other _ _ _ _ hne]
          · rw [stepSymbol_hold_exec config trader s price comp position hget
                hsl htp hcs]
            unfold refreshTrader
            dsimp only
            rw [alGet_alSet_other _ _ _ _ hne]
  | none =>
      unfold stepSymbol
      rw [hget]
      dsimp only
      split_ifs with h1 h2 h3
      · unfold executeBuy
        dsimp only
        rw [alGet_alSet_other _ _ _ _ hne]
      · rfl
      · rfl
      · rfl

theorem runTick_trades_symbols (config : TraderConfig)
    (entries : List (String × ℚ × ℚ)) :
    ∀ trader : AITrader, ∀ t ∈ (runTick config trader entries).trades,
      t ∈ trader.trades ∨ t.symbol ∈ entries.map (fun e => e.1) := by
  induction entries with
  | nil => exact fun trader t ht => Or.inl ht
  | cons e rest ih =>
      intro trader t ht
      rcases ih (stepSymbol config trader e.1 e.2.1 e.2.2) t ht with h | h
      · rcases stepSymbol_trades_symbol config trader e.1 e.2.1 e.2.2 t h
          with h' | h'
        · exact Or.inl h'
        · refine Or.inr ?_
          simp only [List.map_cons, List.mem_cons]
          exact Or.inl h'
      · refine Or.inr ?_
        simp only [List.map_cons, List.mem_cons]
        exact Or.inr h

theorem runTick_no_reentry (config : TraderConfig) (sym : String)
    (entries : List (String × ℚ × ℚ)) :
    ∀ trader : AITrader, (alGet trader.positions sym).isSome →
      (entries.map (fun e => e.1)).Nodup →
      ∀ t ∈ (runTick config trader entries).trades,
        t ∈ trader.trades ∨ t.symbol ≠ sym ∨ t.action = AIAction.sellA := by
  induction entries with
  | nil => exact fun trader _ _ t ht => Or.inl ht
  | cons e rest ih =>
      intro trader hheld hnodup t ht
      have hnd := List.nodup_cons.mp hnodup
      by_cases hs : e.1 = sym
      · obtain ⟨position, hpos⟩ := Option.isSome_iff_exists.mp hheld
        have hre : sym ∉ rest.map (fun e => e.1) := by
          rw [← hs]
          exact hnd.1
        rcases runTick_trades_symbols config rest
            (stepSymbol config trader e.1 e.2.1 e.2.2) t ht with h | h
        · rcases stepSymbol_held_trades config trader e.1 e.2.1 e.2.2
            position (by rw [hs]; exact hpos) t h with h' | h'
          · exact Or.inl h'
          · exact Or.inr (Or.inr h'.1)
        · refine Or.inr (Or.inl ?_)
          intro heq
          rw [heq] at h
          exact hre h
      · have hheld' :
            (alGet (stepSymbol config trader e.1 e.2.1 e.2.2).positions
              sym).isSome := by
          rw [stepSymbol_other_position config trader e.1 e.2.1 e.2.2 sym hs]
          exact hheld
        rcases ih (stepSymbol config trader e.1 e.2.1 e.2.2) hheld' hnd.2
            t ht with h | h
        · rcases stepSymbol_trades_symbol config trader e.1 e.2.1 e.2.2 t h
            with h' | h'
          · exact Or.inl h'
          · refine Or.inr (Or.inl ?_)
            rw [h']
            exact hs
        · exact Or.inr h

theorem stepSymbol_cash_nonneg (config : TraderConfig) (trader : AITrader)
    (sym : String) (price comp : ℚ) (hc : 0 ≤ trader.currentCash)
    (hp : 0 ≤ price) (hpos : ∀ pr ∈ trader.positions, 0 ≤ pr.2.shares) :
    0 ≤ (stepSymbol config trader sym price comp).currentCash := by
  cases hget : alGet trader.positions sym with
  | some position =>
      have hsh : 0 ≤ position.shares :=
        hpos (sym, position) (mem_of_alGet _ _ _ hget)
      have hamt : 0 ≤ position.shares * price := mul_nonneg hsh hp
      by_cases hsl : (price - position.avgCost) / position.avgCost * 100 ≤
          -(config.stopLoss * 100)
      · rw [stepSymbol_stopLoss_exec config trader sym price comp position
            hget hsl,
          executeSell_exec _ _ _ _ _ (alGet_alSet_same _ _ _)]
        show 0 ≤ trader.currentCash + position.shares * price
        linarith
      · by_cases htp : config.takeProfit * 100 ≤
            (price - position.avgCost) / position.avgCost * 100
        · rw [stepSymbol_takeProfit_exec config trader sym price comp
              position hget hsl htp,
            executeSell_exec _ _ _ _ _ (alGet_alSet_same _ _ _)]
          show 0 ≤ trader.currentCash + position.shares * price
          linarith
        · by_cases hcs : comp < config.sellScore
          · rw [stepSymbol_sellSignal_exec config trader sym price comp
                position hget hsl htp hcs,
              executeSell_exec _ _ _ _ _ (alGet_alSet_same _ _ _)]
            show 0 ≤ trader.currentCash + position.shares * price
            linarith
          · rw [stepSymbol_hold_exec config trader sym price comp position
                hget hsl htp hcs]
            exact hc
  | none =>
      unfold stepSymbol
      rw [hget]
      dsimp only
      split_ifs with h1 h2 h3
      · unfold executeBuy
        dsimp only
        obtain ⟨h10, hle⟩ := h3
        linarith
      · exact hc
      · exact hc
      · exact hc

end MultiAI

/-! ### Autotrading agent action selection (`AITradingAgent`,
src/src/services/AITradingAgent.ts) -/

namespace Agent

/-- The distinguishable action/reason pairs produced by the if/else-if
chain of `AITradingAgent.analyzeAndTrade` (lines 95–129). -/
inductive AgentSignal where
  | sellStopLoss
  | sellOnSignal
  | buyNewPosition
  | buyAddToWinner
  | holdPosition
deriving DecidableEq

/-- `const BUY_THRESHOLD = 50`. -/
def BUY_THRESHOLD : ℤ := 50

/-- `const SELL_THRESHOLD = 40`. -/
def SELL_THRESHOLD : ℤ := 40

/-- `MIN_CONFIDENCE_FOR_BUY = ['High', 'Medium', 'Low']`. -/
def MIN_CONFIDENCE_FOR_BUY : List Decision.Confidence :=
  [Decision.Confidence.High, Decision.Confidence.Medium,
   Decision.Confidence.Low]

/-- The action-selection chain of `AITradingAgent.analyzeAndTrade`:
stop-loss first, then the sell signal, then the buy branch (a new position,
or add-to-winner only when the score is at least 65), else hold. -/
def decideAction (hasPosition stopLossTriggered : Bool)
    (compositeScore : ℤ) (confidence : Decision.Confidence) : AgentSignal :=
  if hasPosition ∧ stopLossTriggered then AgentSignal.sellStopLoss
  else if hasPosition ∧ compositeScore < SELL_THRESHOLD then
    AgentSignal.sellOnSignal
  else if BUY_THRESHOLD ≤ compositeScore ∧
      confidence ∈ MIN_CONFIDENCE_FOR_BUY then
    if ¬ hasPosition then AgentSignal.buyNewPosition
    else if 65 ≤ compositeScore then AgentSignal.buyAddToWinner
    else AgentSignal.holdPosition
  else AgentSignal.holdPosition

end Agent

/-- A sample command sequence for the C1 witness. -/
def opsC1 : List Paper.Op :=
  [Paper.Op.buyOp "AAPL" 10 60, Paper.Op.sellOp "AAPL" 12 30 true]

/-- C1 — For every sequence of executed buy and sell operations on a paper
ledger started with non-negative capital `c` and with positive trade prices,
the final cash equals `c` minus the sum of BUY trade totals plus the sum of
SELL trade totals, cash is never negative, and every buy that executes
debits an amount no greater than the cash available before it (buy sizing
enforces affordability: the sized investment is capped by `cash * 0.9` and
floored to whole shares).  On the multi-AI trader path the same
affordability guard (`amount <= currentCash`) keeps cash non-negative
across every per-symbol tick step. -/
theorem c1_cash_accounting (c : ℚ) (ops : List Paper.Op) (hc : 0 ≤ c)
    (hp : ∀ op ∈ ops, 0 < op.price) :
    (Paper.run (Paper.initState c) ops).cash =
        c - Paper.buySum (Paper.run (Paper.initState c) ops).trades +
          Paper.sellSum (Paper.run (Paper.initState c) ops).trades ∧
      0 ≤ (Paper.run (Paper.initState c) ops).cash ∧
      (∀ (st : Paper.State) (s : String) (p sc : ℚ) (tr : Paper.Trade)
          (st2 : Paper.State),
        0 < p → 0 ≤ st.cash → Paper.buy st s p sc = (some tr, st2) →
        tr.total ≤ st.cash) ∧
      (∀ (config : MultiAI.TraderConfig) (trader : MultiAI.AITrader)
          (sym : String) (price comp : ℚ),
        0 ≤ trader.currentCash → 0 ≤ price →
        (∀ pr ∈ trader.positions, 0 ≤ pr.2.shares) →
        0 ≤ (MultiAI.stepSymbol config trader sym price comp).currentCash) := by
  have h0 : Paper.CashInv (Paper.initState c) := by
    refine ⟨?_, by simpa [Paper.initState] using hc⟩
    simp [Paper.initState, Paper.buySum, Paper.sellSum]
  have h := Paper.run_cashInv (Paper.initState c) ops hp h0
  have hsc : (Paper.run (Paper.initState c) ops).startingCapital = c :=
    Paper.run_startingCapital (Paper.initState c) ops
  refine ⟨?_, h.2, fun st s p sc tr st2 hp' hc' hb =>
      Paper.buy_debit_le_cash st s p sc hp' hc' tr st2 hb,
    fun config trader sym price comp hc' hp' hpos =>
      MultiAI.stepSymbol_cash_nonneg config trader sym price comp hc' hp'
        hpos⟩
  have h1 := h.1
  rw [hsc] at h1
  exact h1

theorem c1_cash_accounting_witness :
    0 ≤ (Paper.run (Paper.initState 1000) opsC1).cash :=
  (c1_cash_accounting 1000 opsC1 (by norm_num)
    (by
      intro op hop
      simp only [opsC1, List.mem_cons, List.mem_singleton] at hop
      rcases hop with rfl | rfl | h
      · norm_num [Paper.Op.price]
      · norm_num [Paper.Op.price]
      · exact absurd h (List.not_mem_nil op))).2.1

/-- C3 — exit precedes entry in the scheduler tick, and stop-loss has
priority over the generic sell signal:
(a) a per-symbol step on a held position never records a BUY trade
(the entry branch is unreachable while a position exists);
(b) when the stop-loss condition holds (even if the composite score is also
below the sell threshold), the recorded trade's reason is the stop-loss
template and the position is closed;
(c) when stop-loss fails and take-profit holds, the reason is take-profit;
(d) when both fail and the composite score is below `sellScore`, the reason
is the generic sell signal — the checks run in that order;
(e) across a whole tick over pairwise-distinct symbols, a position held at
tick start is never bought for that symbol in the same tick — in
particular, a position that exits is never re-entered in the same tick;
(f) the `AITradingAgent` chain likewise selects the stop-loss sell, not the
score-based sell, when both conditions hold. -/
theorem c3_exit_priority_and_no_reentry :
    (∀ (config : MultiAI.TraderConfig) (trader : MultiAI.AITrader)
        (sym : String) (price comp : ℚ) (position : MultiAI.AIPosition),
      alGet trader.positions sym = some position →
      ∀ t ∈ (MultiAI.stepSymbol config trader sym price comp).trades,
        t ∈ trader.trades ∨
          (t.action = MultiAI.AIAction.sellA ∧ t.symbol = sym)) ∧
    (∀ (config : MultiAI.TraderConfig) (trader : MultiAI.AITrader)
        (sym : String) (price comp : ℚ) (position : MultiAI.AIPosition),
      alGet trader.positions sym = some position →
      (price - position.avgCost) / position.avgCost * 100 ≤
        -(config.stopLoss * 100) →
      (MultiAI.stepSymbol config trader sym price comp).trades =
          ⟨sym, MultiAI.AIAction.sellA, price, position.shares,
            position.shares * price, MultiAI.TradeReason.stopLossHit,
            some ((price - position.avgCost) * position.shares)⟩ ::
            trader.trades ∧
        alGet (MultiAI.stepSymbol config trader sym price comp).positions
          sym = none) ∧
    (∀ (config : MultiAI.TraderConfig) (trader : MultiAI.AITrader)
        (sym : String) (price comp : ℚ) (position : MultiAI.AIPosition),
      alGet trader.positions sym = some position →
      ¬ (price - position.avgCost) / position.avgCost * 100 ≤
        -(config.stopLoss * 100) →
      config.takeProfit * 100 ≤
        (price - position.avgCost) / position.avgCost * 100 →
      (MultiAI.stepSymbol config trader sym price comp).trades =
        ⟨sym, MultiAI.AIAction.sellA, price, position.shares,
          position.shares * price, MultiAI.TradeReason.takeProfitHit,
          some ((price - position.avgCost) * position.shares)⟩ ::
          trader.trades) ∧
    (∀ (config : MultiAI.TraderConfig) (trader : MultiAI.AITrader)
        (sym : String) (price comp : ℚ) (position : MultiAI.AIPosition),
      alGet trader.positions sym = some position →
      ¬ (price - position.avgCost) / position.avgCost * 100 ≤
        -(config.stopLoss * 100) →
      ¬ config.takeProfit * 100 ≤
        (price - position.avgCost) / position.avgCost * 100 →
      comp < config.sellScore →
      (MultiAI.stepSymbol config trader sym price comp).trades =
        ⟨sym, MultiAI.AIAction.sellA, price, position.shares,
          position.shares * price, MultiAI.TradeReason.sellSignal,
          some ((price - position.avgCost) * position.shares)⟩ ::
          trader.trades) ∧
    (∀ (config : MultiAI.TraderConfig) (sym : String)
        (entries : List (String × ℚ × ℚ)) (trader : MultiAI.AITrader),
      (alGet trader.positions sym).isSome →
      (entries.map (fun e => e.1)).Nodup →
      ∀ t ∈ (MultiAI.runTick config trader entries).trades,
        t ∈ trader.trades ∨ t.symbol ≠ sym ∨
          t.action = MultiAI.AIAction.sellA) ∧
    (∀ (comp : ℤ) (confidence : Decision.Confidence),
      comp < Agent.SELL_THRESHOLD →
      Agent.decideAction true true comp confidence =
        Agent.AgentSignal.sellStopLoss) := by
  refine ⟨MultiAI.stepSymbol_held_trades, ?_, ?_, ?_,
    fun config sym entries trader hheld hnd =>
      MultiAI.runTick_no_reentry config sym entries trader hheld hnd, ?_⟩
  · intro config trader sym price comp position hget hsl
    rw [MultiAI.stepSymbol_stopLoss_exec config trader sym price comp
        position hget hsl,
      MultiAI.executeSell_exec _ _ _ _ _ (alGet_alSet_same _ _ _)]
    exact ⟨rfl, alGet_alDel_same _ _⟩
  · intro config trader sym price comp position hget hsl htp
    rw [MultiAI.stepSymbol_takeProfit_exec config trader sym price comp
        position hget hsl htp,
      MultiAI.executeSell_exec _ _ _ _ _ (alGet_alSet_same _ _ _)]
    rfl
  · intro config trader sym price comp position hget hsl htp hcs
    rw [MultiAI.stepSymbol_sellSignal_exec config trader sym price comp
        position hget hsl htp hcs,
      MultiAI.executeSell_exec _ _ _ _ _ (alGet_alSet_same _ _ _)]
    rfl
  · intro comp confidence hlt
    simp [Agent.decideAction]

/-- The aggressive personality's thresholds, used to exercise C3. -/
def cfgC3 : MultiAI.TraderConfig := ⟨58, 42, 0.25, 4, 0.06, 0.12⟩

/-- A trader holding 2 shares of NVDA at average cost 100. -/
def trC3 : MultiAI.AITrader :=
  ⟨1000, [("NVDA", ⟨2, 100, 100, 0, 0⟩)], [], 0⟩

theorem c3_exit_priority_and_no_reentry_witness :
    ((MultiAI.stepSymbol cfgC3 trC3 "NVDA" 90 40).trades =
        [⟨"NVDA", MultiAI.AIAction.sellA, 90, 2, 2 * 90,
          MultiAI.TradeReason.stopLossHit, some ((90 - 100) * 2)⟩] ∧
      alGet (MultiAI.stepSymbol cfgC3 trC3 "NVDA" 90 40).positions "NVDA" =
        none) ∧
    Agent.decideAction true true 39 Decision.Confidence.Low =
      Agent.AgentSignal.sellStopLoss := by
  constructor
  · exact c3_exit_priority_and_no_reentry.2.1 cfgC3 trC3 "NVDA" 90 40
      ⟨2, 100, 100, 0, 0⟩ (by norm_num [trC3, alGet, List.find?])
      (by norm_num [cfgC3])
  · exact c3_exit_priority_and_no_reentry.2.2.2.2.2 39
      Decision.Confidence.Low (by norm_num [Agent.SELL_THRESHOLD])

end Argus
